import Mathlib

/-!
Verification of the chimeric-contig breaking core (`ragoo_utilities/break_chimera.py`).

The Python module operates on a per-contig alignment collection exposed as
parallel arrays (reference chromosome names, reference start/end, query
start/end, alignment length, query total length, strand), plus per-contig
sequence and feature dictionaries.  We embed those shallowly:

* sequences are `List Char`; dictionaries are association lists with
  Python-dict semantics (first entry per key, assignment replaces);
* machine integers are `Int` (Python ints are unbounded so no modular
  wrap is needed); the single float comparison in `get_ref_parts` is
  modelled with exact rationals;
* fallible code paths (Python `assert` failures, `KeyError`,
  `IndexError`, intervaltree `ValueError` on null intervals,
  `ZeroDivisionError`) are modelled by `Option`, with `none` standing
  for the raised exception; each definition's doc comment says which
  exception its `none` denotes.

The collaborator classes `UniqueContigAlignment`, `LongestContigAlignment`
and the filter methods of the alignment collection are not part of the
repository snapshot; they are modelled from the specification and marked
as such in their doc comments.
-/

namespace BreakChimera

/-- One contig's alignments to the reference, as parallel arrays
(§ DATA MODEL of the spec; the `ContigAlignment` collaborator object). -/
structure ContigAlignment where
  contig : String
  ref_headers : List String
  ref_starts : List Int
  ref_ends : List Int
  query_starts : List Int
  query_ends : List Int
  aln_lens : List Int
  query_lens : List Int
  strands : List Char
deriving DecidableEq, Repr

/-- An annotation feature record (`seqname`, `start`, `end` of the gff
line; other payload fields are irrelevant to the claims). -/
structure Feature where
  seqname : String
  start : Int
  fend : Int
deriving DecidableEq, Repr

/- ------------------------------------------------------------------
Python dict operations, modelled on association lists.
------------------------------------------------------------------- -/

/-- `d[k]` lookup returning `none` when the key is absent. -/
def dictGet (l : List (String × α)) (k : String) : Option α :=
  (l.find? (fun e => e.1 == k)).map (fun e => e.2)

/-- `del d[k]` / the removal effect of `d.pop(k)`. -/
def dictErase (l : List (String × α)) (k : String) : List (String × α) :=
  l.filter (fun e => e.1 != k)

/-- `d[k] = v`: replace the entry if the key is present, else append. -/
def dictSet (l : List (String × α)) (k : String) (v : α) : List (String × α) :=
  if l.any (fun e => e.1 == k) then
    l.map (fun e => if e.1 == k then (k, v) else e)
  else
    l ++ [(k, v)]

/-- `d[k].append(f)` for a dict of feature lists (no-op when the key is
absent; in `update_gff` the key is always pre-initialised). -/
def dictAppendFeat (l : List (String × List Feature)) (k : String) (f : Feature) :
    List (String × List Feature) :=
  l.map (fun e => if e.1 == k then (e.1, e.2 ++ [f]) else e)

/-- Python slice `seq[a:b]` for non-negative indices (the only ones the
splitter is ever handed: borders live in `[0, len(seq)]`). -/
def pySlice (l : List α) (a b : Nat) : List α :=
  (l.drop a).take (b - a)

/-- The sub-contig name `{header}_chimera_broken:{start}-{end}`. -/
def brokenNameNat (header : String) (bp : Nat × Nat) : String :=
  header ++ "_chimera_broken:" ++ toString bp.1 ++ "-" ++ toString bp.2

/-- `break_contig(contigs_dict, header, break_points)` (lines 157-165):
pops the contig's sequence, stores one named slice per break point, and
asserts that the concatenation of the slices reproduces the sequence.
`none` models the `KeyError` of a missing header or the `AssertionError`
of the failed reconstruction check (the abort path). -/
def break_contig (contigs_dict : List (String × List Char)) (header : String)
    (break_points : List (Nat × Nat)) : Option (List (String × List Char)) :=
  match dictGet contigs_dict header with
  | none => none
  | some seq =>
    if (break_points.map (fun bp => pySlice seq bp.1 bp.2)).flatten = seq then
      some (break_points.foldl
        (fun acc bp => dictSet acc (brokenNameNat header bp) (pySlice seq bp.1 bp.2))
        (dictErase contigs_dict header))
    else
      none

/-- `tilesFromB a n bps`: the border list `bps` is an ordered, contiguous,
non-overlapping chain of half-open intervals starting at `a` and ending
at `n`. -/
def tilesFromB : Nat → Nat → List (Nat × Nat) → Bool
  | a, n, [] => a == n
  | a, n, (s, e) :: rest => s == a && s ≤ e && tilesFromB e n rest

/-- Dropping `a` then re-joining the two halves of a further split. -/
lemma pySlice_append_drop (l : List α) (a e : Nat) (h : a ≤ e) :
    pySlice l a e ++ l.drop e = l.drop a := by
  unfold pySlice
  have h1 : l.drop e = (l.drop a).drop (e - a) := by
    rw [List.drop_drop]
    congr 1
    omega
  rw [h1, List.take_append_drop]

/-- Concatenating the slices of a tiling chain from `a` recovers the
suffix of the sequence from `a`. -/
lemma joinSlices_of_tiles (l : List α) :
    ∀ (bps : List (Nat × Nat)) (a : Nat), tilesFromB a l.length bps = true →
      (bps.map (fun bp => pySlice l bp.1 bp.2)).flatten = l.drop a := by
  intro bps
  induction bps with
  | nil =>
    intro a h
    simp only [tilesFromB, beq_iff_eq] at h
    simp [h, List.drop_length]
  | cons bp rest ih =>
    intro a h
    obtain ⟨s, e⟩ := bp
    simp only [tilesFromB, Bool.and_eq_true, beq_iff_eq, decide_eq_true_eq] at h
    obtain ⟨⟨hsa, hse⟩, hrest⟩ := h
    simp only [List.map_cons, List.flatten_cons]
    rw [ih e hrest, hsa, pySlice_append_drop l a e (hsa ▸ hse)]

/-- C1: for every contig sequence and every ordered border list that is
contiguous, non-overlapping, starts at 0 and ends at the sequence
length, `break_contig` succeeds (its reconstruction assertion holds, so
the abort path — `none` in this embedding — is not taken) and the
half-open slices taken in border order concatenate back to the original
sequence exactly. -/
theorem break_contig_reconstructs (contigs_dict : List (String × List Char))
    (header : String) (seq : List Char) (break_points : List (Nat × Nat))
    (hlook : dictGet contigs_dict header = some seq)
    (htile : tilesFromB 0 seq.length break_points = true) :
    (∃ out, break_contig contigs_dict header break_points = some out) ∧
      (break_points.map (fun bp => pySlice seq bp.1 bp.2)).flatten = seq := by
  have hjoin : (break_points.map (fun bp => pySlice seq bp.1 bp.2)).flatten = seq := by
    rw [joinSlices_of_tiles seq break_points 0 htile, List.drop_zero]
  refine ⟨?_, hjoin⟩
  unfold break_contig
  rw [hlook]
  simp only [hjoin, if_pos, eq_self_iff_true, if_true]
  exact ⟨_, rfl⟩

/-- Witness for C1 at a concrete dictionary, sequence and border list. -/
theorem break_contig_reconstructs_witness :
    (dictGet [("c", ['A', 'C', 'G', 'T'])] "c" = some ['A', 'C', 'G', 'T'] ∧
      tilesFromB 0 (['A', 'C', 'G', 'T'] : List Char).length [(0, 2), (2, 4)] = true) ∧
    ((∃ out, break_contig [("c", ['A', 'C', 'G', 'T'])] "c" [(0, 2), (2, 4)] = some out) ∧
      ([(0, 2), (2, 4)].map (fun bp => pySlice (['A', 'C', 'G', 'T'] : List Char) bp.1 bp.2)).flatten
        = ['A', 'C', 'G', 'T']) :=
  ⟨⟨by decide, by decide⟩,
    break_contig_reconstructs [("c", ['A', 'C', 'G', 'T'])] "c" ['A', 'C', 'G', 'T']
      [(0, 2), (2, 4)] (by decide) (by decide)⟩

/- ------------------------------------------------------------------
Interchromosomal Clusterer: `cluster_contig_alns` / `get_borders`.
------------------------------------------------------------------- -/

/-- Consecutive `(borders[i], borders[i+1])` pairs (line 80). -/
def pairsOf (l : List Int) : List (Int × Int) :=
  l.zip l.tail

/-- The loop body of `get_borders` (lines 74-77), acting on the state
`(borders, current_ref)` at loop index `i`. -/
def bordersStep (ordered_refs : List String) (alns : ContigAlignment)
    (order : List Nat) (st : List Int × String) (i : Nat) : List Int × String :=
  if ordered_refs.getD i "" ≠ st.2 ∧ ordered_refs.getD (i + 1) "" ≠ st.2 then
    (st.1 ++ [alns.query_ends.getD (order.getD (i - 1) 0) 0], ordered_refs.getD i "")
  else
    st

/-- `get_borders(ordered_refs, alns, order)` (lines 71-81).  `none`
models the `IndexError` raised on an empty input (`ordered_refs[0]` at
line 73 or `alns.query_lens[0]` at line 79); otherwise the walk over
indices `1 .. len-2` collects breakpoints and the result is the list of
consecutive border pairs. -/
def get_borders (ordered_refs : List String) (alns : ContigAlignment)
    (order : List Nat) : Option (List (Int × Int)) :=
  match ordered_refs, alns.query_lens with
  | [], _ => none
  | _, [] => none
  | r0 :: _, q0 :: _ =>
    let res := (List.range' 1 (ordered_refs.length - 2)).foldl
      (bordersStep ordered_refs alns order) ([0], r0)
    some (pairsOf (res.1 ++ [q0]))

/-- Lexicographic order on `(query_start, query_end, index)` triples:
Python's tuple comparison used by `sorted(query_pos)` (line 63). -/
def lex3 (a b : Int × Int × Nat) : Prop :=
  a.1 < b.1 ∨ (a.1 = b.1 ∧ (a.2.1 < b.2.1 ∨ (a.2.1 = b.2.1 ∧ a.2.2 ≤ b.2.2)))

instance : DecidableRel lex3 := fun a b => by unfold lex3; infer_instance

/-- `Modelled from the spec:` the alignment collection's mutating filter
"restrict to a chosen subset of reference chromosome names"
(`ContigAlignment.filter_ref_chroms`, a collaborator method not in the
repository snapshot).  All parallel arrays are filtered consistently by
the index set whose reference header is in `chroms`. -/
def filter_ref_chroms (alns : ContigAlignment) (chroms : List String) : ContigAlignment :=
  let keep := fun i => decide (alns.ref_headers.getD i "" ∈ chroms)
  let idxs := (List.range alns.ref_headers.length).filter keep
  { contig := alns.contig
    ref_headers := idxs.map (fun i => alns.ref_headers.getD i "")
    ref_starts := idxs.map (fun i => alns.ref_starts.getD i 0)
    ref_ends := idxs.map (fun i => alns.ref_ends.getD i 0)
    query_starts := idxs.map (fun i => alns.query_starts.getD i 0)
    query_ends := idxs.map (fun i => alns.query_ends.getD i 0)
    aln_lens := idxs.map (fun i => alns.aln_lens.getD i 0)
    query_lens := idxs.map (fun i => alns.query_lens.getD i 0)
    strands := idxs.map (fun i => alns.strands.getD i ' ') }

/-- `Modelled from the spec:` the alignment collection's mutating filter
"restrict to alignments with length ≥ a minimum"
(`ContigAlignment.filter_lengths`, a collaborator method not in the
repository snapshot). -/
def filter_lengths (alns : ContigAlignment) (l : Int) : ContigAlignment :=
  let keep := fun i => decide (l ≤ alns.aln_lens.getD i 0)
  let idxs := (List.range alns.ref_headers.length).filter keep
  { contig := alns.contig
    ref_headers := idxs.map (fun i => alns.ref_headers.getD i "")
    ref_starts := idxs.map (fun i => alns.ref_starts.getD i 0)
    ref_ends := idxs.map (fun i => alns.ref_ends.getD i 0)
    query_starts := idxs.map (fun i => alns.query_starts.getD i 0)
    query_ends := idxs.map (fun i => alns.query_ends.getD i 0)
    aln_lens := idxs.map (fun i => alns.aln_lens.getD i 0)
    query_lens := idxs.map (fun i => alns.query_lens.getD i 0)
    strands := idxs.map (fun i => alns.strands.getD i ' ') }

/-- `cluster_contig_alns(contig, alns, chroms, l)` (lines 51-68): looks
the contig up in the alignment dictionary (`none` models the `KeyError`
of a missing contig), filters to the desired chromosomes, sorts the
`(query_start, query_end, index)` triples, and hands the chromosome
list in that order to `get_borders`.  (The parameter `l` is accepted
and ignored, as in the source.) -/
def cluster_contig_alns (contig : String) (alns : List (String × ContigAlignment))
    (chroms : List String) (_l : Int) : Option (List (Int × Int)) :=
  match dictGet alns contig with
  | none => none
  | some a =>
    let ctg_alns := filter_ref_chroms a chroms
    let query_pos := (List.range ctg_alns.ref_headers.length).map
      (fun i => (ctg_alns.query_starts.getD i 0, ctg_alns.query_ends.getD i 0, i))
    let final_order := (query_pos.insertionSort lex3).map (fun t => t.2.2)
    let final_refs := final_order.map (fun i => ctg_alns.ref_headers.getD i "")
    get_borders final_refs ctg_alns final_order

/-- Alignment set used to refute the non-overlap part of the border
tiling claim: five alignments already in query order, to chromosomes
A,B,B,C,C, whose emitted query-end breakpoints (50 then 30) are not
monotone. -/
def cexCA : ContigAlignment :=
  { contig := "ctg"
    ref_headers := ["A", "B", "B", "C", "C"]
    ref_starts := [0, 0, 0, 0, 0]
    ref_ends := [10, 10, 10, 10, 10]
    query_starts := [0, 10, 20, 30, 40]
    query_ends := [50, 12, 30, 32, 42]
    aln_lens := [50, 2, 10, 2, 2]
    query_lens := [100, 100, 100, 100, 100]
    strands := ['+', '+', '+', '+', '+'] }

/-- C2 counterexample: on `cexCA` the Interchromosomal Clusterer's
border list is `[(0,50),(50,30),(30,100)]`, whose intervals are not
pairwise non-overlapping (and `(50,30)` is not even a well-formed
half-open interval), refuting the claim that every output border list
is non-overlapping. -/
theorem get_borders_overlap_cex :
    cluster_contig_alns "ctg" [("ctg", cexCA)] ["A", "B", "C"] 0
        = some [(0, 50), (50, 30), (30, 100)] ∧
      ¬ List.Pairwise (fun p q : Int × Int => p.2 ≤ q.1 ∨ q.2 ≤ p.1)
        [(0, 50), (50, 30), (30, 100)] := by
  constructor
  · decide
  · decide

/-- The data seen by the `get_borders` walk at loop index `i`: the
current chromosome, the next chromosome, and the query end of the
previous alignment in sorted order. -/
def walkTriples (refs : List String) (alns : ContigAlignment) (order : List Nat) :
    List (String × String × Int) :=
  (List.range' 1 (refs.length - 2)).map
    (fun i => (refs.getD i "", refs.getD (i + 1) "",
      alns.query_ends.getD (order.getD (i - 1) 0) 0))

/-- The emission rule of the walk, stated structurally: a breakpoint
(the previous alignment's query end) is emitted exactly when both the
current and the next chromosome differ from `current_ref`, which is
then updated to the current chromosome. -/
def specWalk : String → List (String × String × Int) → List Int
  | _, [] => []
  | cur, t :: rest =>
    if t.1 ≠ cur ∧ t.2.1 ≠ cur then t.2.2 :: specWalk t.1 rest
    else specWalk cur rest

/-- The index-based fold of `get_borders` computes exactly the
structural walk, appended to the accumulated border list. -/
lemma bordersFold_eq_specWalk (refs : List String) (alns : ContigAlignment)
    (order : List Nat) :
    ∀ (il : List Nat) (b : List Int) (cur : String),
      (il.foldl (bordersStep refs alns order) (b, cur)).1
        = b ++ specWalk cur (il.map (fun i => (refs.getD i "", refs.getD (i + 1) "",
            alns.query_ends.getD (order.getD (i - 1) 0) 0))) := by
  intro il
  induction il with
  | nil => intro b cur; simp [specWalk]
  | cons i rest ih =>
    intro b cur
    simp only [List.foldl_cons, List.map_cons, specWalk, bordersStep]
    by_cases h : refs.getD i "" ≠ cur ∧ refs.getD (i + 1) "" ≠ cur
    · rw [if_pos h, if_pos h, ih]
      simp
    · rw [if_neg h, if_neg h, ih]

/-- `get_borders` on a non-empty input returns the consecutive pairs of
`[0] ++ emitted breakpoints ++ [query length]`. -/
lemma get_borders_eq_walk (refs : List String) (alns : ContigAlignment)
    (order : List Nat) (r0 : String) (q0 : Int)
    (h1 : refs.head? = some r0) (h2 : alns.query_lens.head? = some q0) :
    get_borders refs alns order
      = some (pairsOf ((0 :: specWalk r0 (walkTriples refs alns order)) ++ [q0])) := by
  cases refs with
  | nil => simp at h1
  | cons r rest =>
    have hr : r = r0 := by simpa using h1
    cases hql : alns.query_lens with
    | nil => rw [hql] at h2; simp at h2
    | cons q qrest =>
      have hq : q = q0 := by rw [hql] at h2; simpa using h2
      subst hr hq
      unfold get_borders
      rw [hql]
      have hfold := bordersFold_eq_specWalk (r :: rest) alns order
        (List.range' 1 ((r :: rest).length - 2)) [0] r
      simp only [hfold, walkTriples, List.singleton_append, List.cons_append,
        List.nil_append]

/-- If every chromosome equals the initial `current_ref`, the walk never
triggers. -/
lemma specWalk_nil_of_all (r0 : String) :
    ∀ ts : List (String × String × Int), (∀ t ∈ ts, t.1 = r0) → specWalk r0 ts = [] := by
  intro ts
  induction ts with
  | nil => intro _; rfl
  | cons t rest ih =>
    intro h
    have ht1 : t.1 = r0 := h t (List.mem_cons_self _ _)
    simp only [specWalk]
    rw [if_neg (fun hc => hc.1 ht1)]
    exact ih (fun x hx => h x (List.mem_cons_of_mem _ hx))

lemma pairsOf_length (l : List Int) : (pairsOf l).length = l.length - 1 := by
  simp only [pairsOf, List.length_zip, List.length_tail]
  omega

lemma pairsOf_get (l : List Int) (k : Nat) (hk2 : k + 1 < l.length)
    (h : k < (pairsOf l).length) :
    (pairsOf l).get ⟨k, h⟩ = (l.get ⟨k, by omega⟩, l.get ⟨k + 1, hk2⟩) := by
  simp [pairsOf, List.get_eq_getElem, List.getElem_zip, List.getElem_tail]

/-- C7: for every non-empty alignment set sorted by query start,
`get_borders` emits an internal breakpoint equal to the query end of the
previous alignment exactly as given by the structural walk `specWalk`
(trigger when both the current and the next chromosome differ from
`current_ref`, updating `current_ref` on each trigger); the border list
always begins at 0 and ends at the full query length, and when the walk
emits nothing — in particular when only one chromosome occurs — the
result is the single whole-contig interval. -/
theorem get_borders_emission_rule (refs : List String) (alns : ContigAlignment)
    (order : List Nat) (r0 : String) (q0 : Int)
    (h1 : refs.head? = some r0) (h2 : alns.query_lens.head? = some q0) :
    get_borders refs alns order
        = some (pairsOf ((0 :: specWalk r0 (walkTriples refs alns order)) ++ [q0])) ∧
      (specWalk r0 (walkTriples refs alns order) = [] →
        get_borders refs alns order = some [(0, q0)]) ∧
      ((∀ x ∈ refs, x = r0) →
        get_borders refs alns order = some [(0, q0)]) := by
  have hmain := get_borders_eq_walk refs alns order r0 q0 h1 h2
  refine ⟨hmain, ?_, ?_⟩
  · intro hnil
    rw [hmain, hnil]
    rfl
  · intro hall
    have hnil : specWalk r0 (walkTriples refs alns order) = [] := by
      apply specWalk_nil_of_all
      intro t ht
      simp only [walkTriples, List.mem_map] at ht
      obtain ⟨i, hi, rfl⟩ := ht
      rw [List.mem_range'_1] at hi
      have hlen : 0 < refs.length := by
        cases refs
        · simp at h1
        · simp
      have hilt : i < refs.length := by omega
      rw [List.getD_eq_getElem _ _ hilt]
      exact hall _ (List.getElem_mem _)
    rw [hmain, hnil]
    rfl

/-- The element of `l ++ [a]` at position `l.length`. -/
lemma get_concat_of_idx (l : List Int) (a : Int) (i : Nat) (h : i < (l ++ [a]).length)
    (hi : i = l.length) : (l ++ [a]).get ⟨i, h⟩ = a := by
  subst hi
  simp [List.get_eq_getElem]

/-- C2 (amended): for every non-empty alignment set, the border list
produced by `get_borders` is a contiguous chain — each interval's end
equals the next interval's start — whose first interval starts at 0 and
whose last interval ends at the contig's full query length.  (The
intervals need not be non-overlapping, nor individually well-formed:
see `get_borders_overlap_cex`.) -/
theorem get_borders_tiling_amended (refs : List String) (alns : ContigAlignment)
    (order : List Nat) (r0 : String) (q0 : Int)
    (h1 : refs.head? = some r0) (h2 : alns.query_lens.head? = some q0) :
    ∃ ivs, get_borders refs alns order = some ivs ∧ ivs ≠ [] ∧
      ivs.head?.map Prod.fst = some 0 ∧
      ivs.getLast?.map Prod.snd = some q0 ∧
      ∀ k (hk : k + 1 < ivs.length),
        (ivs.get ⟨k, by omega⟩).2 = (ivs.get ⟨k + 1, hk⟩).1 := by
  refine ⟨pairsOf ((0 :: specWalk r0 (walkTriples refs alns order)) ++ [q0]),
    get_borders_eq_walk refs alns order r0 q0 h1 h2, ?_⟩
  generalize specWalk r0 (walkTriples refs alns order) = w
  have hbl : ((0 :: w) ++ [q0]).length = w.length + 2 := by simp
  have hlen : (pairsOf ((0 :: w) ++ [q0])).length = w.length + 1 := by
    rw [pairsOf_length, hbl]
    omega
  have hne : pairsOf ((0 :: w) ++ [q0]) ≠ [] := by
    apply List.ne_nil_of_length_pos
    omega
  refine ⟨hne, ?_, ?_, ?_⟩
  · have h0 : 0 < (pairsOf ((0 :: w) ++ [q0])).length := by omega
    rw [List.head?_eq_getElem?, List.getElem?_eq_getElem h0]
    have := pairsOf_get ((0 :: w) ++ [q0]) 0 (by rw [hbl]; omega) h0
    rw [List.get_eq_getElem] at this
    rw [this]
    simp
  · have hL : (pairsOf ((0 :: w) ++ [q0])).length - 1
        < (pairsOf ((0 :: w) ++ [q0])).length := by omega
    rw [List.getLast?_eq_getElem?, List.getElem?_eq_getElem hL]
    have hk2 : ((pairsOf ((0 :: w) ++ [q0])).length - 1) + 1
        < ((0 :: w) ++ [q0]).length := by rw [hbl, hlen]; omega
    have := pairsOf_get ((0 :: w) ++ [q0])
      ((pairsOf ((0 :: w) ++ [q0])).length - 1) hk2 hL
    rw [List.get_eq_getElem] at this
    rw [this]
    simp only [Option.map_some', Option.some.injEq]
    exact get_concat_of_idx (0 :: w) q0 _ hk2 (by rw [hlen]; simp)
  · intro k hk
    have hk2 : k + 1 + 1 ≤ ((0 :: w) ++ [q0]).length := by rw [hbl]; rw [hlen] at hk; omega
    have e1 := pairsOf_get ((0 :: w) ++ [q0]) k (by omega) (by omega)
    have e2 := pairsOf_get ((0 :: w) ++ [q0]) (k + 1) (by omega) hk
    rw [e1, e2]

/-- A single-alignment contig used as concrete witness input. -/
def oneCA : ContigAlignment :=
  { contig := "c"
    ref_headers := ["A"]
    ref_starts := [0]
    ref_ends := [10]
    query_starts := [0]
    query_ends := [10]
    aln_lens := [10]
    query_lens := [100]
    strands := ['+'] }

/-- Witness for the amended C2 at a concrete single-alignment input. -/
theorem get_borders_tiling_amended_witness :
    ((["A"] : List String).head? = some "A" ∧ oneCA.query_lens.head? = some 100) ∧
    (∃ ivs, get_borders ["A"] oneCA [0] = some ivs ∧ ivs ≠ [] ∧
      ivs.head?.map Prod.fst = some 0 ∧
      ivs.getLast?.map Prod.snd = some 100 ∧
      ∀ k (hk : k + 1 < ivs.length),
        (ivs.get ⟨k, by omega⟩).2 = (ivs.get ⟨k + 1, hk⟩).1) :=
  ⟨⟨by decide, by decide⟩,
    get_borders_tiling_amended ["A"] oneCA [0] "A" 100 (by decide) (by decide)⟩

/-- Witness for C7 at a concrete five-alignment input. -/
theorem get_borders_emission_rule_witness :
    ((["A", "B", "B", "C", "C"] : List String).head? = some "A" ∧
      cexCA.query_lens.head? = some (100 : Int)) ∧
    (get_borders ["A", "B", "B", "C", "C"] cexCA [0, 1, 2, 3, 4]
        = some (pairsOf ((0 :: specWalk "A"
            (walkTriples ["A", "B", "B", "C", "C"] cexCA [0, 1, 2, 3, 4])) ++ [100])) ∧
      (specWalk "A" (walkTriples ["A", "B", "B", "C", "C"] cexCA [0, 1, 2, 3, 4]) = [] →
        get_borders ["A", "B", "B", "C", "C"] cexCA [0, 1, 2, 3, 4] = some [(0, 100)]) ∧
      ((∀ x ∈ (["A", "B", "B", "C", "C"] : List String), x = "A") →
        get_borders ["A", "B", "B", "C", "C"] cexCA [0, 1, 2, 3, 4] = some [(0, 100)])) :=
  ⟨⟨by decide, by decide⟩,
    get_borders_emission_rule ["A", "B", "B", "C", "C"] cexCA [0, 1, 2, 3, 4] "A" 100
      (by decide) (by decide)⟩

/- ------------------------------------------------------------------
Coverage Scorer: `get_ref_parts` (lines 10-48).
------------------------------------------------------------------- -/

/-- The interval-coalescing sweep of `get_ref_parts` (lines 36-40):
starting from `max_end = -1`, each interval contributes
`max(0, end - max(start, max_end))` and raises `max_end`. -/
def sweepAux : List (Int × Int) → Int → Int
  | [], _ => 0
  | (s, e) :: rest, max_end => max 0 (e - max s max_end) + sweepAux rest (max max_end e)

/-- Comparison by interval start, the key of `sorted(..., key=lambda
tup: tup[0])` (line 35). -/
def byStart (p q : Int × Int) : Prop := p.1 ≤ q.1

instance : DecidableRel byStart := fun p q => by unfold byStart; infer_instance

instance : IsTotal (Int × Int) byStart := ⟨fun a b => le_total a.1 b.1⟩

instance : IsTrans (Int × Int) byStart := ⟨fun _ _ _ h1 h2 => le_trans h1 h2⟩

/-- The per-chromosome union length as the code computes it: stable
sort by start, then the sweep with `max_end = -1`. -/
def chromCoveredLen (ivs : List (Int × Int)) : Int :=
  sweepAux (ivs.insertionSort byStart) (-1)

/-- The set of integer points covered by at least one half-open
interval of the list: the naive reference definition of the union. -/
def unionPts : List (Int × Int) → Finset ℤ
  | [] => ∅
  | p :: rest => Finset.Ico p.1 p.2 ∪ unionPts rest

lemma mem_unionPts {x : ℤ} : ∀ {l : List (Int × Int)},
    x ∈ unionPts l ↔ ∃ p ∈ l, p.1 ≤ x ∧ x < p.2 := by
  intro l
  induction l with
  | nil => simp [unionPts]
  | cons p rest ih =>
    simp only [unionPts, Finset.mem_union, Finset.mem_Ico, ih, List.mem_cons]
    constructor
    · rintro (h | ⟨q, hq, hx⟩)
      · exact ⟨p, Or.inl rfl, h⟩
      · exact ⟨q, Or.inr hq, hx⟩
    · rintro ⟨q, hq | hq, hx⟩
      · subst hq
        exact Or.inl hx
      · exact Or.inr ⟨q, hq, hx⟩

/-- On a start-sorted list the sweep counts exactly the covered points
at or beyond the current `max_end`. -/
lemma sweepAux_card : ∀ (l : List (Int × Int)), l.Sorted byStart → ∀ (m : Int),
    sweepAux l m = (((unionPts l).filter (fun x => m ≤ x)).card : Int) := by
  intro l
  induction l with
  | nil => intro _ m; simp [sweepAux, unionPts]
  | cons p rest ih =>
    intro hs m
    obtain ⟨s, e⟩ := p
    have hrest : rest.Sorted byStart := hs.of_cons
    have hstart : ∀ x ∈ unionPts rest, s ≤ x := by
      intro x hx
      rw [mem_unionPts] at hx
      obtain ⟨q, hq, hx1, _⟩ := hx
      have := (List.pairwise_cons.mp hs).1 q hq
      unfold byStart at this
      omega
    have hA : (Finset.Ico (s : ℤ) e).filter (fun x => m ≤ x) = Finset.Ico (max s m) e := by
      ext x
      simp only [Finset.mem_filter, Finset.mem_Ico]
      omega
    have hB : Finset.Ico (max s m : ℤ) e ∪ (unionPts rest).filter (fun x => m ≤ x)
        = Finset.Ico (max s m : ℤ) e ∪ (unionPts rest).filter (fun x => max m e ≤ x) := by
      ext x
      simp only [Finset.mem_union, Finset.mem_filter, Finset.mem_Ico]
      constructor
      · rintro (h | ⟨hU, hm⟩)
        · exact Or.inl h
        · by_cases hx : max m e ≤ x
          · exact Or.inr ⟨hU, hx⟩
          · left
            have := hstart x hU
            omega
      · rintro (h | ⟨hU, hm⟩)
        · exact Or.inl h
        · exact Or.inr ⟨hU, by omega⟩
    have hC : Disjoint (Finset.Ico (max s m : ℤ) e)
        ((unionPts rest).filter (fun x => max m e ≤ x)) := by
      rw [Finset.disjoint_left]
      intro x hx1 hx2
      rw [Finset.mem_Ico] at hx1
      rw [Finset.mem_filter] at hx2
      omega
    calc sweepAux ((s, e) :: rest) m
        = max 0 (e - max s m) + sweepAux rest (max m e) := by
          simp only [sweepAux]
      _ = max 0 (e - max s m)
            + (((unionPts rest).filter (fun x => max m e ≤ x)).card : Int) := by
          rw [ih hrest (max m e)]
      _ = ((Finset.Ico (max s m : ℤ) e).card : Int)
            + (((unionPts rest).filter (fun x => max m e ≤ x)).card : Int) := by
          rw [Int.card_Ico]
          congr 1
          omega
      _ = ((((unionPts ((s, e) :: rest)).filter (fun x => m ≤ x)).card : ℕ) : Int) := by
          have : (unionPts ((s, e) :: rest)).filter (fun x => m ≤ x)
              = Finset.Ico (max s m : ℤ) e
                ∪ (unionPts rest).filter (fun x => max m e ≤ x) := by
            show (Finset.Ico (s : ℤ) e ∪ unionPts rest).filter (fun x => m ≤ x) = _
            rw [Finset.filter_union, hA, hB]
          rw [this, Finset.card_union_of_disjoint hC, Nat.cast_add]

/-- C3: for every finite multiset of possibly-overlapping reference
intervals on one chromosome (any list of genomic intervals, i.e. with
non-negative starts), the covered length computed by the Coverage
Scorer's sort-and-sweep equals the number of integer points in the true
set union of the intervals (the naive reference definition
`unionPts`). -/
theorem coverage_union_length (l : List (Int × Int)) (h : ∀ p ∈ l, 0 ≤ p.1) :
    chromCoveredLen l = ((unionPts l).card : Int) := by
  unfold chromCoveredLen
  rw [sweepAux_card _ (List.sorted_insertionSort byStart l) (-1)]
  have hset : unionPts (l.insertionSort byStart) = unionPts l := by
    ext x
    rw [mem_unionPts, mem_unionPts]
    constructor
    · rintro ⟨p, hp, hx⟩
      exact ⟨p, (List.perm_insertionSort byStart l).mem_iff.mp hp, hx⟩
    · rintro ⟨p, hp, hx⟩
      exact ⟨p, (List.perm_insertionSort byStart l).mem_iff.mpr hp, hx⟩
  rw [hset, Finset.filter_true_of_mem]
  intro x hx
  rw [mem_unionPts] at hx
  obtain ⟨p, hp, hx1, _⟩ := hx
  have := h p hp
  omega

/-- Witness for C3 at a concrete overlapping interval set. -/
theorem coverage_union_length_witness :
    (∀ p ∈ ([(0, 5), (3, 8), (10, 12)] : List (Int × Int)), 0 ≤ p.1) ∧
      chromCoveredLen [(0, 5), (3, 8), (10, 12)]
        = ((unionPts [(0, 5), (3, 8), (10, 12)]).card : Int) :=
  ⟨by decide, coverage_union_length [(0, 5), (3, 8), (10, 12)] (by decide)⟩

/-- The keys of a Python dict in insertion order: first occurrence of
each chromosome name (`defaultdict` key order in lines 19-30). -/
def firstKeys (l : List String) : List String :=
  l.foldl (fun acc h => if h ∈ acc then acc else acc ++ [h]) []

/-- `get_ref_parts(alns, l, p, r)` (lines 10-48): drop alignments
shorter than `l`, group reference intervals by chromosome, score each
chromosome by its union length (`chromCoveredLen`), and keep the
chromosomes whose share of the grand total exceeds `p` percent and
whose absolute length exceeds `r`.  The float division
`ranges[i]/total_sum` is modelled exactly over `ℚ`.  `none` models the
unguarded `ZeroDivisionError` raised at line 45 when the total covered
length is zero while at least one chromosome was scored. -/
def get_ref_parts (alns : ContigAlignment) (l : Int) (p : ℚ) (r : Int) :
    Option (List String) :=
  let idxs := (List.range alns.ref_headers.length).filter
    (fun i => decide (l ≤ alns.aln_lens.getD i 0))
  let keys := firstKeys (idxs.map (fun i => alns.ref_headers.getD i ""))
  let rangesOf := fun (k : String) =>
    chromCoveredLen ((idxs.filter (fun i => alns.ref_headers.getD i "" == k)).map
      (fun i => (alns.ref_starts.getD i 0, alns.ref_ends.getD i 0)))
  let total := (keys.map rangesOf).sum
  if total = 0 ∧ keys ≠ [] then none
  else some (keys.filter
    (fun k => decide (((rangesOf k : ℚ) / (total : ℚ)) * 100 > p ∧ rangesOf k > r)))

/-- A degenerate alignment set whose only alignment covers a
zero-length reference interval: its total covered length is 0 while one
chromosome was scored. -/
def zeroCovCA : ContigAlignment :=
  { contig := "ctg"
    ref_headers := ["chr1"]
    ref_starts := [5]
    ref_ends := [5]
    query_starts := [0]
    query_ends := [0]
    aln_lens := [10]
    query_lens := [50]
    strands := ['+'] }

/-- C8: the Coverage Scorer does NOT guard the percentage division: on
`zeroCovCA` (total covered length 0, one scored chromosome) line 45
divides by zero and the scorer crashes with `ZeroDivisionError` —
modelled as `none` — instead of reporting an "insufficient alignment
coverage" condition. -/
theorem get_ref_parts_div_by_zero : get_ref_parts zeroCovCA 1 1 0 = none := by
  decide

/- ------------------------------------------------------------------
Breakpoint Adjuster: `avoid_gff_intervals` (lines 84-120).
------------------------------------------------------------------- -/

/-- Point-in-some-interval test: the intervaltree point query `t[p]`
returns a non-empty set exactly when some stored half-open interval
contains `p`. -/
def coveredB (feats : List (Int × Int)) (p : Int) : Bool :=
  feats.any (fun q => decide (q.1 ≤ p) && decide (p < q.2))

/-- Largest interval end in the tree (0 when empty); used only to bound
the probing loop. -/
def maxEnds (feats : List (Int × Int)) : Int :=
  feats.foldr (fun q acc => max q.2 acc) 0

/-- The `while interval_query: p += 1` probing loop, with explicit fuel
(the loop terminates because each step needs `p` below some interval
end, hence below `maxEnds`). -/
def probeUp (feats : List (Int × Int)) : Nat → Int → Int
  | 0, p => p
  | fuel + 1, p => if coveredB feats p then probeUp feats fuel (p + 1) else p

/-- A single border coordinate after the probing loop. -/
def adjustCoord (feats : List (Int × Int)) (p : Int) : Int :=
  probeUp feats (maxEnds feats - p).toNat p

lemma mem_le_maxEnds (feats : List (Int × Int)) : ∀ q ∈ feats, q.2 ≤ maxEnds feats := by
  induction feats with
  | nil => intro q hq; simp at hq
  | cons f rest ih =>
    intro q hq
    rcases List.mem_cons.mp hq with h | h
    · subst h
      simp only [maxEnds, List.foldr_cons]
      exact le_max_left _ _
    · calc q.2 ≤ maxEnds rest := ih q h
        _ ≤ maxEnds (f :: rest) := by
            simp only [maxEnds, List.foldr_cons]
            exact le_max_right _ _

lemma coveredB_lt_maxEnds {feats : List (Int × Int)} {p : Int}
    (h : coveredB feats p = true) : p < maxEnds feats := by
  unfold coveredB at h
  rw [List.any_eq_true] at h
  obtain ⟨q, hq, hqp⟩ := h
  rw [Bool.and_eq_true, decide_eq_true_eq, decide_eq_true_eq] at hqp
  have := mem_le_maxEnds feats q hq
  omega

/-- With enough fuel the probing loop stops at an uncovered point. -/
lemma probeUp_not_covered (feats : List (Int × Int)) :
    ∀ (fuel : Nat) (p : Int), (maxEnds feats - p).toNat ≤ fuel →
      coveredB feats (probeUp feats fuel p) = false := by
  intro fuel
  induction fuel with
  | zero =>
    intro p h
    simp only [probeUp]
    cases hc : coveredB feats p with
    | false => rfl
    | true =>
      have := coveredB_lt_maxEnds hc
      omega
  | succ n ih =>
    intro p h
    simp only [probeUp]
    cases hc : coveredB feats p with
    | false =>
      rw [if_neg (by simp)]
      exact hc
    | true =>
      rw [if_pos rfl]
      have hlt := coveredB_lt_maxEnds hc
      exact ih (p + 1) (by omega)

lemma adjustCoord_not_covered (feats : List (Int × Int)) (p : Int) :
    coveredB feats (adjustCoord feats p) = false :=
  probeUp_not_covered feats _ p le_rfl

/-- The feature intervals stored in the tree (line 93-97): zero-length
features are skipped. -/
def gffTreeIntervals (gff_ins : List Feature) : List (Int × Int) :=
  (gff_ins.filter (fun g => g.start != g.fend)).map (fun g => (g.start, g.fend))

/-- `avoid_gff_intervals(borders, gff_ins)` (lines 84-120): probe each
border's start and end upward until neither lies inside any stored
feature interval, then replace the last adjusted border's end with the
original final border's end.  `none` models the intervaltree
`ValueError` on a feature with `end < start` or the `IndexError` of
`new_borders[-1]` on an empty border list. -/
def avoid_gff_intervals (borders : List (Int × Int)) (gff_ins : List Feature) :
    Option (List (Int × Int)) :=
  if gff_ins.any (fun g => decide (g.fend < g.start)) then none
  else
    let feats := gffTreeIntervals gff_ins
    let new_borders := borders.map (fun b => (adjustCoord feats b.1, adjustCoord feats b.2))
    match new_borders.getLast?, borders.getLast? with
    | some lastNb, some lastB => some (new_borders.dropLast ++ [(lastNb.1, lastB.2)])
    | _, _ => none

/-- A point lies strictly inside some feature interval of the gff
collection. -/
def inGff (gff_ins : List Feature) (p : Int) : Prop :=
  ∃ g ∈ gff_ins, g.start ≤ p ∧ p < g.fend

instance (gff_ins : List Feature) (p : Int) : Decidable (inGff gff_ins p) := by
  unfold inGff
  infer_instance

lemma coveredB_iff_inGff (gff_ins : List Feature) (p : Int) :
    coveredB (gffTreeIntervals gff_ins) p = true ↔ inGff gff_ins p := by
  unfold coveredB gffTreeIntervals inGff
  rw [List.any_eq_true]
  constructor
  · rintro ⟨q, hq, hqp⟩
    rw [Bool.and_eq_true, decide_eq_true_eq, decide_eq_true_eq] at hqp
    rw [List.mem_map] at hq
    obtain ⟨g, hg, rfl⟩ := hq
    exact ⟨g, (List.mem_filter.mp hg).1, hqp⟩
  · rintro ⟨g, hg, h1, h2⟩
    refine ⟨(g.start, g.fend), ?_, ?_⟩
    · rw [List.mem_map]
      refine ⟨g, List.mem_filter.mpr ⟨hg, ?_⟩, rfl⟩
      simp only [bne_iff_ne, ne_eq]
      omega
    · rw [Bool.and_eq_true, decide_eq_true_eq, decide_eq_true_eq]
      exact ⟨h1, h2⟩

/-- C5 counterexample: with a single border `(0,10)` and one feature
`[5,15)`, the adjuster probes the end to 15 but then restores the
original final end 10, which lies strictly inside the feature — so the
conjunction "no adjusted border endpoint falls inside a feature AND the
last end equals the original final end" is violated by the code's own
post-processing. -/
theorem avoid_gff_last_end_in_feature_cex :
    avoid_gff_intervals [(0, 10)] [{ seqname := "f", start := 5, fend := 15 }]
        = some [(0, 10)] ∧
      ∃ iv ∈ ([(0, 10)] : List (Int × Int)),
        inGff [{ seqname := "f", start := 5, fend := 15 }] iv.2 := by
  constructor
  · decide
  · decide

/-- C5 (amended): for every non-empty border list and every collection
of features with `start ≤ end` (zero-length features being ignored),
the Breakpoint Adjuster succeeds and (a) keeps one adjusted border per
input border, (b) no adjusted border's start, and no adjusted border's
end except the final one, falls strictly inside any feature interval,
and (c) the last adjusted border's end equals the original final
border's end (the contig's true length) — but that restored final end
may itself lie inside a feature (`avoid_gff_last_end_in_feature_cex`). -/
theorem avoid_gff_amended (borders : List (Int × Int)) (gff_ins : List Feature)
    (hne : borders ≠ []) (hval : ∀ g ∈ gff_ins, g.start ≤ g.fend) :
    ∃ nb, avoid_gff_intervals borders gff_ins = some nb ∧
      nb.length = borders.length ∧
      nb.getLast?.map Prod.snd = borders.getLast?.map Prod.snd ∧
      (∀ iv ∈ nb, ¬ inGff gff_ins iv.1) ∧
      (∀ iv ∈ nb.dropLast, ¬ inGff gff_ins iv.2) := by
  have hguard : gff_ins.any (fun g => decide (g.fend < g.start)) = false := by
    rw [List.any_eq_false]
    intro g hg
    have := hval g hg
    simp only [decide_eq_true_eq]
    omega
  obtain ⟨lastB, hlastB⟩ : ∃ lb, borders.getLast? = some lb := by
    cases hb : borders.getLast? with
    | none => exact absurd (List.getLast?_eq_none_iff.mp hb) hne
    | some lb => exact ⟨lb, rfl⟩
  have hmap : (borders.map (fun b =>
      (adjustCoord (gffTreeIntervals gff_ins) b.1,
        adjustCoord (gffTreeIntervals gff_ins) b.2))).getLast?
      = some (adjustCoord (gffTreeIntervals gff_ins) lastB.1,
          adjustCoord (gffTreeIntervals gff_ins) lastB.2) := by
    rw [List.getLast?_map, hlastB]
    rfl
  have hnotin : ∀ p : Int, ¬ inGff gff_ins (adjustCoord (gffTreeIntervals gff_ins) p) := by
    intro p hcontra
    rw [← coveredB_iff_inGff] at hcontra
    rw [adjustCoord_not_covered] at hcontra
    exact Bool.false_ne_true hcontra
  refine ⟨(borders.map (fun b => (adjustCoord (gffTreeIntervals gff_ins) b.1,
      adjustCoord (gffTreeIntervals gff_ins) b.2))).dropLast
        ++ [(adjustCoord (gffTreeIntervals gff_ins) lastB.1, lastB.2)],
    ?_, ?_, ?_, ?_, ?_⟩
  · unfold avoid_gff_intervals
    rw [hguard]
    simp only [Bool.false_eq_true, if_false, hmap, hlastB]
  · rw [List.length_append, List.length_dropLast, List.length_map, List.length_singleton]
    have : 0 < borders.length := List.length_pos.mpr hne
    omega
  · rw [List.getLast?_concat, hlastB]
    rfl
  · intro iv hiv
    rcases List.mem_append.mp hiv with h | h
    · have := (List.dropLast_sublist _).subset h
      rw [List.mem_map] at this
      obtain ⟨b, _, rfl⟩ := this
      exact hnotin b.1
    · rw [List.mem_singleton] at h
      subst h
      exact hnotin lastB.1
  · intro iv hiv
    rw [List.dropLast_concat] at hiv
    have := (List.dropLast_sublist _).subset hiv
    rw [List.mem_map] at this
    obtain ⟨b, _, rfl⟩ := this
    exact hnotin b.2

/-- Witness for the amended C5 at a concrete border/feature input. -/
theorem avoid_gff_amended_witness :
    (([(0, 10), (10, 20)] : List (Int × Int)) ≠ [] ∧
      ∀ g ∈ [({ seqname := "f", start := 12, fend := 14 } : Feature)], g.start ≤ g.fend) ∧
    (∃ nb, avoid_gff_intervals [(0, 10), (10, 20)]
        [{ seqname := "f", start := 12, fend := 14 }] = some nb ∧
      nb.length = ([(0, 10), (10, 20)] : List (Int × Int)).length ∧
      nb.getLast?.map Prod.snd
        = ([(0, 10), (10, 20)] : List (Int × Int)).getLast?.map Prod.snd ∧
      (∀ iv ∈ nb, ¬ inGff [{ seqname := "f", start := 12, fend := 14 }] iv.1) ∧
      (∀ iv ∈ nb.dropLast, ¬ inGff [{ seqname := "f", start := 12, fend := 14 }] iv.2)) :=
  ⟨⟨by decide, by decide⟩,
    avoid_gff_amended [(0, 10), (10, 20)] [{ seqname := "f", start := 12, fend := 14 }]
      (by decide) (by decide)⟩

/- ------------------------------------------------------------------
Feature Remapper: `update_gff` (lines 123-154).
------------------------------------------------------------------- -/

/-- The sub-contig name for an `Int` border pair (lines 134 and 149). -/
def brokenName (contig : String) (b : Int × Int) : String :=
  contig ++ "_chimera_broken:" ++ toString b.1 ++ "-" ++ toString b.2

/-- Reassign a feature to the sub-contig of border `b`, shifting its
coordinates by the border's start (lines 149-151). -/
def shiftFeat (contig : String) (b : Int × Int) (f : Feature) : Feature :=
  { seqname := brokenName contig b, start := f.start - b.1, fend := f.fend - b.1 }

/-- The intervaltree point query `t[p]` over the borders (line 143): the
set of distinct borders containing `p` (the tree stores each distinct
interval once). -/
def featureQuery (borders : List (Int × Int)) (p : Int) : List (Int × Int) :=
  borders.dedup.filter (fun b => decide (b.1 ≤ p) && decide (p < b.2))

/-- One iteration of the feature loop (lines 142-152): `none` models
the `assert len(query) == 1` failure when the feature's start matches
zero or several borders. -/
def placeFeat (contig : String) (borders : List (Int × Int))
    (acc : List (String × List Feature)) (f : Feature) :
    Option (List (String × List Feature)) :=
  match featureQuery borders f.start with
  | [b] => some (dictAppendFeat acc (brokenName contig b) (shiftFeat contig b f))
  | _ => none

/-- `update_gff(features, borders, contig)` (lines 123-154): pop the
contig's features (`none` models the `KeyError` of a missing contig),
initialise one empty list per border name, build the border tree
(`none` models the intervaltree `ValueError` on a border with
`end ≤ start`), then reassign every feature to its unique matching
border. -/
def update_gff (features : List (String × List Feature)) (borders : List (Int × Int))
    (contig : String) : Option (List (String × List Feature)) :=
  match dictGet features contig with
  | none => none
  | some contig_feats =>
    if borders.any (fun b => decide (b.2 ≤ b.1)) then none
    else
      let base := borders.foldl (fun acc b => dictSet acc (brokenName contig b) [])
        (dictErase features contig)
      List.foldlM (placeFeat contig borders) base contig_feats

/-- C4 counterexample: the feature `[5,15)` starts inside the border
`(0,10)` but ends beyond it; `update_gff` places it in sub-contig
`c_chimera_broken:0-10` with local coordinates `(5,15)`, violating
`local_end ≤ sub-contig length` (15 > 10). -/
theorem update_gff_overflow_cex :
    update_gff [("c", [{ seqname := "c", start := 5, fend := 15 }])] [(0, 10), (10, 20)] "c"
        = some [("c_chimera_broken:0-10",
                  [{ seqname := "c_chimera_broken:0-10", start := 5, fend := 15 }]),
                ("c_chimera_broken:10-20", [])] ∧
      ∃ g ∈ [({ seqname := "c_chimera_broken:0-10", start := 5, fend := 15 } : Feature)],
        (10 : Int) - 0 < g.fend := by
  constructor
  · decide
  · decide



lemma dictGet_dictAppendFeat_eq (k : String) (f : Feature) :
    ∀ l : List (String × List Feature),
      dictGet (dictAppendFeat l k f) k = (dictGet l k).map (fun lb => lb ++ [f]) := by
  intro l
  induction l with
  | nil => rfl
  | cons e rest ih =>
    unfold dictAppendFeat dictGet at *
    rw [List.map_cons]
    cases he : (e.1 == k) with
    | true =>
      rw [if_pos rfl]
      simp only [List.find?_cons, he]
      rfl
    | false =>
      rw [if_neg Bool.false_ne_true]
      simp only [List.find?_cons, he]
      exact ih

lemma dictGet_dictAppendFeat_ne (k k' : String) (f : Feature) (h : k' ≠ k) :
    ∀ l : List (String × List Feature),
      dictGet (dictAppendFeat l k f) k' = dictGet l k' := by
  intro l
  induction l with
  | nil => rfl
  | cons e rest ih =>
    unfold dictAppendFeat dictGet at *
    rw [List.map_cons]
    cases he : (e.1 == k) with
    | true =>
      have hne' : (e.1 == k') = false := by
        rw [beq_iff_eq] at he
        rw [beq_eq_false_iff_ne, he]
        exact fun hh => h hh.symm
      rw [if_pos rfl]
      simp only [List.find?_cons, hne']
      exact ih
    | false =>
      rw [if_neg Bool.false_ne_true]
      cases he' : (e.1 == k') with
      | true => simp only [List.find?_cons, he']
      | false =>
        simp only [List.find?_cons, he']
        exact ih

lemma find?_map_replace (k : String) (v : α) :
    ∀ l : List (String × α), l.any (fun e => e.1 == k) = true →
      (l.map (fun e => if e.1 == k then (k, v) else e)).find? (fun e => e.1 == k)
        = some (k, v) := by
  intro l
  induction l with
  | nil => intro h; cases h
  | cons e rest ih =>
    intro hany
    rw [List.map_cons]
    cases he : (e.1 == k) with
    | true =>
      rw [if_pos rfl]
      simp only [List.find?_cons, beq_self_eq_true k]
    | false =>
      rw [if_neg Bool.false_ne_true]
      simp only [List.find?_cons, he]
      apply ih
      rw [List.any_cons, he, Bool.false_or] at hany
      exact hany

lemma find?_map_replace_ne (k k' : String) (v : α) (h : k' ≠ k) :
    ∀ l : List (String × α),
      (l.map (fun e => if e.1 == k then (k, v) else e)).find? (fun e => e.1 == k')
        = l.find? (fun e => e.1 == k') := by
  intro l
  induction l with
  | nil => rfl
  | cons e rest ih =>
    rw [List.map_cons]
    cases he : (e.1 == k) with
    | true =>
      have hkk' : (k == k') = false := by
        rw [beq_eq_false_iff_ne]
        exact fun hh => h hh.symm
      have hek' : (e.1 == k') = false := by
        rw [beq_iff_eq] at he
        rw [beq_eq_false_iff_ne, he]
        exact fun hh => h hh.symm
      rw [if_pos rfl]
      simp only [List.find?_cons, hkk', hek']
      exact ih
    | false =>
      rw [if_neg Bool.false_ne_true]
      cases he' : (e.1 == k') with
      | true => simp only [List.find?_cons, he']
      | false =>
        simp only [List.find?_cons, he']
        exact ih

lemma dictGet_dictSet_eq (l : List (String × α)) (k : String) (v : α) :
    dictGet (dictSet l k v) k = some v := by
  unfold dictSet
  by_cases hany : l.any (fun e => e.1 == k) = true
  · rw [if_pos hany]
    unfold dictGet
    rw [find?_map_replace k v l hany]
    rfl
  · rw [if_neg hany]
    unfold dictGet
    rw [List.find?_append]
    have hnone : l.find? (fun e => e.1 == k) = none := by
      rw [List.find?_eq_none]
      intro x hx hcontra
      rw [Bool.not_eq_true, List.any_eq_false] at hany
      exact (hany x hx) hcontra
    rw [hnone, Option.none_or]
    simp only [List.find?_cons, beq_self_eq_true k]
    rfl

lemma dictGet_dictSet_ne (l : List (String × α)) (k k' : String) (v : α) (h : k' ≠ k) :
    dictGet (dictSet l k v) k' = dictGet l k' := by
  unfold dictSet
  by_cases hany : l.any (fun e => e.1 == k) = true
  · rw [if_pos hany]
    unfold dictGet
    rw [find?_map_replace_ne k k' v h l]
  · rw [if_neg hany]
    unfold dictGet
    rw [List.find?_append]
    have hkk' : (k == k') = false := by
      rw [beq_eq_false_iff_ne]
      exact fun hh => h hh.symm
    simp only [List.find?_cons, hkk', List.find?_nil, Option.or_none]

lemma dictGet_dictErase_self (l : List (String × α)) (k : String) :
    dictGet (dictErase l k) k = none := by
  unfold dictGet dictErase
  have hnone : (l.filter (fun e => e.1 != k)).find? (fun e => e.1 == k) = none := by
    rw [List.find?_eq_none]
    intro x hx
    rw [List.mem_filter] at hx
    have hx2 := hx.2
    rw [bne_iff_ne, ne_eq] at hx2
    rw [beq_iff_eq]
    exact hx2
  rw [hnone]
  rfl

lemma brokenName_ne_contig (contig : String) (b : Int × Int) :
    brokenName contig b ≠ contig := by
  intro h
  have hlen := congrArg String.length h
  unfold brokenName at hlen
  simp only [String.length_append] at hlen
  have h16 : ("_chimera_broken:" : String).length = 16 := rfl
  have h1 : ("-" : String).length = 1 := rfl
  omega

/-- Invariant carried through the feature loop: the original contig's
entry is gone, and every border's sub-contig list exists and contains
only features with valid local coordinates. -/
def InvG (contig : String) (borders : List (Int × Int))
    (acc : List (String × List Feature)) : Prop :=
  dictGet acc contig = none ∧
  ∀ b ∈ borders, ∃ lb, dictGet acc (brokenName contig b) = some lb ∧
    ∀ g ∈ lb, 0 ≤ g.start ∧ g.start ≤ g.fend ∧ g.start < b.2 - b.1

/-- Total number of features stored across the border sub-contig
lists. -/
def cntG (contig : String) (borders : List (Int × Int))
    (acc : List (String × List Feature)) : Nat :=
  (borders.map (fun b => ((dictGet acc (brokenName contig b)).getD []).length)).sum

lemma foldl_dictSet_get_other (contig : String) (k' : String) :
    ∀ (bs : List (Int × Int)) (acc : List (String × List Feature)),
      (∀ b ∈ bs, brokenName contig b ≠ k') →
      dictGet (bs.foldl (fun acc b => dictSet acc (brokenName contig b) []) acc) k'
        = dictGet acc k' := by
  intro bs
  induction bs with
  | nil => intro acc _; rfl
  | cons b rest ih =>
    intro acc hne
    rw [List.foldl_cons, ih _ (fun x hx => hne x (List.mem_cons_of_mem _ hx))]
    exact dictGet_dictSet_ne acc (brokenName contig b) k' [] fun hh =>
      hne b (List.mem_cons_self _ _) hh.symm

lemma foldl_dictSet_get_mem (contig : String) :
    ∀ (bs : List (Int × Int)) (acc : List (String × List Feature)),
      (bs.map (brokenName contig)).Nodup →
      ∀ b ∈ bs,
        dictGet (bs.foldl (fun acc b => dictSet acc (brokenName contig b) []) acc)
          (brokenName contig b) = some [] := by
  intro bs
  induction bs with
  | nil => intro acc _ b hb; cases hb
  | cons b0 rest ih =>
    intro acc hnod b hb
    rw [List.map_cons, List.nodup_cons] at hnod
    rw [List.foldl_cons]
    rcases List.mem_cons.mp hb with rfl | hmem
    · rw [foldl_dictSet_get_other contig (brokenName contig b) rest _ ?hne]
      · exact dictGet_dictSet_eq acc (brokenName contig b) []
      · intro x hx hcontra
        exact hnod.1 (hcontra ▸ List.mem_map_of_mem (brokenName contig) hx)
    · exact ih _ hnod.2 b hmem

lemma featureQuery_mem {borders : List (Int × Int)} {p : Int} {b : Int × Int}
    (h : b ∈ featureQuery borders p) : b ∈ borders ∧ b.1 ≤ p ∧ p < b.2 := by
  unfold featureQuery at h
  rw [List.mem_filter] at h
  refine ⟨List.mem_dedup.mp h.1, ?_⟩
  have := h.2
  rw [Bool.and_eq_true, decide_eq_true_eq, decide_eq_true_eq] at this
  exact this

lemma length_one_eq_singleton {l : List (Int × Int)} (h : l.length = 1) :
    ∃ b, l = [b] := by
  cases l with
  | nil => cases h
  | cons b rest =>
    cases rest with
    | nil => exact ⟨b, rfl⟩
    | cons c t => simp at h

lemma sum_map_update (F F' : (Int × Int) → Nat) (b0 : Int × Int) :
    ∀ borders : List (Int × Int), b0 ∈ borders → borders.Nodup →
      F' b0 = F b0 + 1 → (∀ b ∈ borders, b ≠ b0 → F' b = F b) →
      (borders.map F').sum = (borders.map F).sum + 1 := by
  intro borders
  induction borders with
  | nil => intro hmem; cases hmem
  | cons b bs ih =>
    intro hmem hnod heq hne
    rw [List.nodup_cons] at hnod
    rcases List.mem_cons.mp hmem with rfl | hm
    · simp only [List.map_cons, List.sum_cons, heq]
      have hrest : ∀ x ∈ bs, F' x = F x := by
        intro x hx
        exact hne x (List.mem_cons_of_mem _ hx) (fun hxb => hnod.1 (hxb ▸ hx))
      rw [List.map_congr_left hrest]
      omega
    · simp only [List.map_cons, List.sum_cons]
      have hb : b ≠ b0 := fun h => hnod.1 (h ▸ hm)
      rw [hne b (List.mem_cons_self _ _) hb,
        ih hm hnod.2 heq (fun x hx => hne x (List.mem_cons_of_mem _ hx))]
      omega

lemma placeFeat_step (contig : String) (borders : List (Int × Int))
    (hnodname : (borders.map (brokenName contig)).Nodup)
    (acc : List (String × List Feature)) (f : Feature)
    (hInv : InvG contig borders acc)
    (hq : (featureQuery borders f.start).length = 1) (hse : f.start ≤ f.fend) :
    ∃ acc', placeFeat contig borders acc f = some acc' ∧ InvG contig borders acc' ∧
      cntG contig borders acc' = cntG contig borders acc + 1 := by
  have hnod : borders.Nodup := List.Nodup.of_map _ hnodname
  obtain ⟨b0, hb0⟩ := length_one_eq_singleton hq
  have hmem0 : b0 ∈ featureQuery borders f.start := by
    rw [hb0]
    exact List.mem_singleton_self b0
  obtain ⟨hb0in, hb0le, hb0lt⟩ := featureQuery_mem hmem0
  have hinj : ∀ b ∈ borders, b ≠ b0 → brokenName contig b ≠ brokenName contig b0 := by
    intro b hb hne hcontra
    exact hne (List.inj_on_of_nodup_map hnodname hb hb0in hcontra)
  obtain ⟨lb0, hlb0, hPlb0⟩ := hInv.2 b0 hb0in
  refine ⟨dictAppendFeat acc (brokenName contig b0) (shiftFeat contig b0 f),
    ?_, ⟨?_, ?_⟩, ?_⟩
  · unfold placeFeat
    rw [hb0]
  · rw [dictGet_dictAppendFeat_ne (brokenName contig b0) contig _
      (Ne.symm (brokenName_ne_contig contig b0)) acc]
    exact hInv.1
  · intro b hb
    by_cases hbe : b = b0
    · subst hbe
      refine ⟨lb0 ++ [shiftFeat contig b f], ?_, ?_⟩
      · rw [dictGet_dictAppendFeat_eq (brokenName contig b) (shiftFeat contig b f) acc,
          hlb0]
        rfl
      · intro g hg
        rcases List.mem_append.mp hg with hg | hg
        · exact hPlb0 g hg
        · rw [List.mem_singleton] at hg
          subst hg
          refine ⟨?_, ?_, ?_⟩ <;> simp only [shiftFeat] <;> omega
    · obtain ⟨lb, hlb, hP⟩ := hInv.2 b hb
      refine ⟨lb, ?_, hP⟩
      rw [dictGet_dictAppendFeat_ne (brokenName contig b0) (brokenName contig b) _
        (hinj b hb hbe) acc]
      exact hlb
  · unfold cntG
    apply sum_map_update _ _ b0 borders hb0in hnod
    · rw [dictGet_dictAppendFeat_eq (brokenName contig b0) (shiftFeat contig b0 f) acc,
        hlb0]
      simp
    · intro b hb hne
      rw [dictGet_dictAppendFeat_ne (brokenName contig b0) (brokenName contig b) _
        (hinj b hb hne) acc]

lemma foldlM_placeFeat (contig : String) (borders : List (Int × Int))
    (hnodname : (borders.map (brokenName contig)).Nodup) :
    ∀ (feats : List Feature) (acc : List (String × List Feature)),
      InvG contig borders acc →
      (∀ f ∈ feats, (featureQuery borders f.start).length = 1 ∧ f.start ≤ f.fend) →
      ∃ out, List.foldlM (placeFeat contig borders) acc feats = some out ∧
        InvG contig borders out ∧
        cntG contig borders out = cntG contig borders acc + feats.length := by
  intro feats
  induction feats with
  | nil =>
    intro acc hInv _
    exact ⟨acc, rfl, hInv, by simp⟩
  | cons f rest ih =>
    intro acc hInv hgood
    obtain ⟨acc', hstep, hInv', hcnt'⟩ := placeFeat_step contig borders hnodname acc f hInv
      (hgood f (List.mem_cons_self _ _)).1 (hgood f (List.mem_cons_self _ _)).2
    obtain ⟨out, hfold, hInvO, hcntO⟩ :=
      ih acc' hInv' (fun x hx => hgood x (List.mem_cons_of_mem _ hx))
    refine ⟨out, ?_, hInvO, ?_⟩
    · rw [List.foldlM_cons, hstep]
      simpa using hfold
    · rw [hcntO, hcnt']
      rw [List.length_cons]
      omega

/-- C4 (amended): whenever the contig is present, all borders are
well-formed with pairwise-distinct sub-contig names, every feature's
start matches exactly one border, and features are valid
(`start ≤ end`), `update_gff` succeeds; the original contig's entry is
removed, every input feature is placed in exactly one sub-contig list
(the lists' total size equals the input feature count), and every
placed feature satisfies `0 ≤ local_start ≤ local_end` and
`local_start < sub-contig length`.  The claimed bound
`local_end ≤ sub-contig length` does NOT hold in general
(`update_gff_overflow_cex`): a feature may end beyond its border. -/
theorem update_gff_amended (features : List (String × List Feature))
    (borders : List (Int × Int)) (contig : String) (contig_feats : List Feature)
    (h1 : dictGet features contig = some contig_feats)
    (h2 : ∀ b ∈ borders, b.1 < b.2)
    (h3 : (borders.map (brokenName contig)).Nodup)
    (h4 : ∀ f ∈ contig_feats, (featureQuery borders f.start).length = 1)
    (h5 : ∀ f ∈ contig_feats, f.start ≤ f.fend) :
    ∃ out, update_gff features borders contig = some out ∧
      dictGet out contig = none ∧
      (borders.map (fun b => ((dictGet out (brokenName contig b)).getD []).length)).sum
        = contig_feats.length ∧
      ∀ b ∈ borders, ∀ g ∈ (dictGet out (brokenName contig b)).getD [],
        0 ≤ g.start ∧ g.start ≤ g.fend ∧ g.start < b.2 - b.1 := by
  have hguard : borders.any (fun b => decide (b.2 ≤ b.1)) = false := by
    rw [List.any_eq_false]
    intro b hb
    have := h2 b hb
    simp only [decide_eq_true_eq]
    omega
  set base := borders.foldl (fun acc b => dictSet acc (brokenName contig b) [])
    (dictErase features contig) with hbase
  have hInvBase : InvG contig borders base := by
    constructor
    · rw [hbase, foldl_dictSet_get_other contig contig borders _
        (fun b _ => brokenName_ne_contig contig b)]
      exact dictGet_dictErase_self features contig
    · intro b hb
      exact ⟨[], foldl_dictSet_get_mem contig borders _ h3 b hb,
        by intro g hg; cases hg⟩
  have hcntBase : cntG contig borders base = 0 := by
    unfold cntG
    apply List.sum_eq_zero
    intro x hx
    rw [List.mem_map] at hx
    obtain ⟨b, hb, rfl⟩ := hx
    rw [foldl_dictSet_get_mem contig borders _ h3 b hb]
    rfl
  obtain ⟨out, hfold, hInvO, hcntO⟩ := foldlM_placeFeat contig borders h3 contig_feats
    base hInvBase (fun f hf => ⟨h4 f hf, h5 f hf⟩)
  refine ⟨out, ?_, hInvO.1, ?_, ?_⟩
  · unfold update_gff
    rw [h1, hguard]
    simp only [Bool.false_eq_true, if_false]
    exact hfold
  · rw [hcntBase] at hcntO
    unfold cntG at hcntO
    omega
  · intro b hb g hg
    obtain ⟨lb, hlb, hP⟩ := hInvO.2 b hb
    rw [hlb] at hg
    exact hP g hg

/-- Witness for the amended C4 at a concrete feature and border set. -/
theorem update_gff_amended_witness :
    (dictGet [("c", [{ seqname := "c", start := 2, fend := 5 }])] "c"
        = some [({ seqname := "c", start := 2, fend := 5 } : Feature)] ∧
      (∀ b ∈ ([(0, 10), (10, 20)] : List (Int × Int)), b.1 < b.2) ∧
      (([(0, 10), (10, 20)] : List (Int × Int)).map (brokenName "c")).Nodup ∧
      (∀ f ∈ [({ seqname := "c", start := 2, fend := 5 } : Feature)],
        (featureQuery [(0, 10), (10, 20)] f.start).length = 1) ∧
      (∀ f ∈ [({ seqname := "c", start := 2, fend := 5 } : Feature)],
        f.start ≤ f.fend)) ∧
    (∃ out, update_gff [("c", [{ seqname := "c", start := 2, fend := 5 }])]
        [(0, 10), (10, 20)] "c" = some out ∧
      dictGet out "c" = none ∧
      (([(0, 10), (10, 20)] : List (Int × Int)).map
        (fun b => ((dictGet out (brokenName "c" b)).getD []).length)).sum
          = [({ seqname := "c", start := 2, fend := 5 } : Feature)].length ∧
      ∀ b ∈ ([(0, 10), (10, 20)] : List (Int × Int)),
        ∀ g ∈ (dictGet out (brokenName "c" b)).getD [],
          0 ≤ g.start ∧ g.start ≤ g.fend ∧ g.start < b.2 - b.1) :=
  ⟨⟨by decide, by decide, by decide, by decide, by decide⟩,
    update_gff_amended [("c", [{ seqname := "c", start := 2, fend := 5 }])]
      [(0, 10), (10, 20)] "c" [{ seqname := "c", start := 2, fend := 5 }]
      (by decide) (by decide) (by decide) (by decide) (by decide)⟩

/- ------------------------------------------------------------------
Intrachromosomal Detector: `get_intra_contigs` (lines 168-234).
------------------------------------------------------------------- -/

/-- Maximum of a list of integers, Python's `max(list)` (meaningful on
non-empty lists; 0 default on empty, which the code never queries). -/
def maxList (l : List Int) : Int := l.foldl max (l.headD 0)

/-- Total aligned length of one chromosome's alignments. -/
def chromAlnSum (alns : ContigAlignment) (k : String) : Int :=
  ((List.range alns.ref_headers.length).filter
    (fun i => alns.ref_headers.getD i "" == k)).foldl
    (fun acc i => acc + alns.aln_lens.getD i 0) 0

/-- `Modelled from the spec:` `UniqueContigAlignment(alns).ref_chrom`
(a collaborator class not in the repository snapshot) — "the single
chromosome with the most total aligned length (longest-coverage winner
— ties broken arbitrarily but deterministically)"; this model keeps
the first-encountered chromosome on ties. -/
def uniqueRefChrom (alns : ContigAlignment) : String :=
  let keys := firstKeys alns.ref_headers
  keys.foldl
    (fun best k => if chromAlnSum alns k > chromAlnSum alns best then k else best)
    (keys.headD "")

/-- `Modelled from the spec:` `LongestContigAlignment(alns).strand`
(a collaborator class not in the repository snapshot) — the strand of
"the single longest alignment (by alignment length; ties broken
arbitrarily)"; this model takes the first alignment attaining the
maximum length. -/
def longestStrand (alns : ContigAlignment) : Char :=
  alns.strands.getD (alns.aln_lens.indexOf (maxList alns.aln_lens)) ' '

/-- The alignment collection after the detector's two in-place filters
(lines 179-183), applied to the deep copy: restrict to the best
chromosome, then to alignments of length at least `l`. -/
def intraFiltered (alns : ContigAlignment) (l : Int) : ContigAlignment :=
  filter_lengths (filter_ref_chroms alns [uniqueRefChrom alns]) l

/-- Alignment indices sorted by `(ref_start, ref_end, index)` — the
order of `sorted(query_pos)` at lines 192-195 (Python tuple
comparison). -/
def refOrder (ctg : ContigAlignment) : List Nat :=
  (((List.range ctg.ref_headers.length).map
    (fun i => (ctg.ref_starts.getD i 0, ctg.ref_ends.getD i 0, i))).insertionSort
      lex3).map (fun t => t.2.2)

/-- Query starts with start/end roles swapped on a `-` strand contig
(lines 203-206). -/
def swappedQS (ctg : ContigAlignment) : List Int :=
  if longestStrand ctg = '-' then ctg.query_ends else ctg.query_starts

/-- Query ends with start/end roles swapped on a `-` strand contig. -/
def swappedQE (ctg : ContigAlignment) : List Int :=
  if longestStrand ctg = '-' then ctg.query_starts else ctg.query_ends

/-- `ordered_query_starts` (line 209). -/
def orderedQS (ctg : ContigAlignment) : List Int :=
  (refOrder ctg).map (fun i => (swappedQS ctg).getD i 0)

/-- `ordered_query_ends` (line 208). -/
def orderedQE (ctg : ContigAlignment) : List Int :=
  (refOrder ctg).map (fun i => (swappedQE ctg).getD i 0)

/-- `distances_wrt_ref` (lines 213-215), exactly as the code indexes
it. -/
def intraDistRef (ctg : ContigAlignment) : List Int :=
  (List.range ((refOrder ctg).length - 1)).map
    (fun i => ctg.ref_starts.getD ((refOrder ctg).getD (i + 1) 0) 0
      - ctg.ref_starts.getD ((refOrder ctg).getD i 0) 0)

/-- `distances_wrt_ctg` (lines 218-220), exactly as the code indexes
it. -/
def intraDistCtg (ctg : ContigAlignment) : List Int :=
  (List.range ((refOrder ctg).length - 1)).map
    (fun i => |(swappedQS ctg).getD ((refOrder ctg).getD (i + 1) 0) 0
      - (swappedQS ctg).getD ((refOrder ctg).getD i 0) 0|)

/-- `get_intra_contigs(alns, l, d, c)` (lines 168-234): filter to the
best chromosome and minimum length (on a deep copy), give up (`none`,
the explicit no-breakpoint result) if nothing remains, then split at
the largest reference gap exceeding `d`, else at the first query start
if the largest query gap exceeds `c`, else report no breakpoint. -/
def get_intra_contigs (alns : ContigAlignment) (l d c : Int) :
    Option (String × List (Int × Int)) :=
  if (intraFiltered alns l).ref_headers.length = 0 then none
  else if intraDistRef (intraFiltered alns l) ≠ [] then
    if maxList (intraDistRef (intraFiltered alns l)) > d then
      if (orderedQS (intraFiltered alns l)).getD
          ((intraDistRef (intraFiltered alns l)).indexOf
            (maxList (intraDistRef (intraFiltered alns l)))) 0
        < (orderedQE (intraFiltered alns l)).getD
          ((intraDistRef (intraFiltered alns l)).indexOf
            (maxList (intraDistRef (intraFiltered alns l)))) 0 then
        some ((intraFiltered alns l).contig,
          [(0, (orderedQS (intraFiltered alns l)).getD
              ((intraDistRef (intraFiltered alns l)).indexOf
                (maxList (intraDistRef (intraFiltered alns l)))) 0),
           ((orderedQS (intraFiltered alns l)).getD
              ((intraDistRef (intraFiltered alns l)).indexOf
                (maxList (intraDistRef (intraFiltered alns l)))) 0,
            (intraFiltered alns l).query_lens.getD 0 0)])
      else
        some ((intraFiltered alns l).contig,
          [(0, (orderedQE (intraFiltered alns l)).getD
              ((intraDistRef (intraFiltered alns l)).indexOf
                (maxList (intraDistRef (intraFiltered alns l)))) 0),
           ((orderedQE (intraFiltered alns l)).getD
              ((intraDistRef (intraFiltered alns l)).indexOf
                (maxList (intraDistRef (intraFiltered alns l)))) 0,
            (intraFiltered alns l).query_lens.getD 0 0)])
    else if maxList (intraDistCtg (intraFiltered alns l)) > c then
      some ((intraFiltered alns l).contig,
        [(0, (orderedQS (intraFiltered alns l)).getD 0 0),
         ((orderedQS (intraFiltered alns l)).getD 0 0,
          (intraFiltered alns l).query_lens.getD 0 0)])
    else none
  else none

/-- The consecutive reference-start gaps in reference-sorted order,
written as the spec describes them: differences of consecutive entries
of the ordered reference-start list. -/
def intraRefGaps (ctg : ContigAlignment) : List Int :=
  let starts := (refOrder ctg).map (fun i => ctg.ref_starts.getD i 0)
  (starts.zip starts.tail).map (fun p => p.2 - p.1)

/-- The absolute consecutive query-start gaps (with strand-swapped
roles) in reference-sorted order, written as the spec describes them. -/
def intraQueryGaps (ctg : ContigAlignment) : List Int :=
  let starts := (refOrder ctg).map (fun i => (swappedQS ctg).getD i 0)
  (starts.zip starts.tail).map (fun p => |p.2 - p.1|)

/-- The index of the (first) maximal reference gap. -/
def intraBreakIdx (ctg : ContigAlignment) : Nat :=
  (intraRefGaps ctg).indexOf (maxList (intraRefGaps ctg))

/-- The claim's boundary point: the query start at the max-gap index
when it is below the query end there, else the query end. -/
def intraBreakPoint (ctg : ContigAlignment) : Int :=
  if (orderedQS ctg).getD (intraBreakIdx ctg) 0
      < (orderedQE ctg).getD (intraBreakIdx ctg) 0 then
    (orderedQS ctg).getD (intraBreakIdx ctg) 0
  else
    (orderedQE ctg).getD (intraBreakIdx ctg) 0

lemma range_map_getD_eq_zip (g : Int → Int → Int) (xs : List Int) :
    (List.range (xs.length - 1)).map (fun i => g (xs.getD (i + 1) 0) (xs.getD i 0))
      = (xs.zip xs.tail).map (fun p => g p.2 p.1) := by
  apply List.ext_getElem
  · rw [List.length_map, List.length_range, List.length_map, List.length_zip,
      List.length_tail]
    omega
  · intro i h1 h2
    rw [List.length_map, List.length_range] at h1
    rw [List.getElem_map, List.getElem_map, List.getElem_range, List.getElem_zip,
      List.getElem_tail]
    rw [List.getD_eq_getElem _ _ (by omega : i + 1 < xs.length),
      List.getD_eq_getElem _ _ (by omega : i < xs.length)]

lemma map_getD_comp (fo : List Nat) (rs : List Int) (j : Nat) (hj : j < fo.length) :
    (fo.map (fun i => rs.getD i 0)).getD j 0 = rs.getD (fo.getD j 0) 0 := by
  rw [List.getD_eq_getElem _ _ (by rw [List.length_map]; exact hj), List.getElem_map,
    List.getD_eq_getElem _ _ hj]

lemma intraDistRef_eq (ctg : ContigAlignment) :
    intraDistRef ctg = intraRefGaps ctg := by
  unfold intraDistRef intraRefGaps
  rw [← range_map_getD_eq_zip (fun a b => a - b)
    ((refOrder ctg).map (fun i => ctg.ref_starts.getD i 0))]
  apply List.ext_getElem
  · rw [List.length_map, List.length_range, List.length_map, List.length_range,
      List.length_map]
  · intro i h1 h2
    rw [List.length_map, List.length_range] at h1
    rw [List.getElem_map, List.getElem_map, List.getElem_range, List.getElem_range]
    rw [map_getD_comp _ _ (i + 1) (by omega), map_getD_comp _ _ i (by omega)]

lemma intraDistCtg_eq (ctg : ContigAlignment) :
    intraDistCtg ctg = intraQueryGaps ctg := by
  unfold intraDistCtg intraQueryGaps
  rw [← range_map_getD_eq_zip (fun a b => |a - b|)
    ((refOrder ctg).map (fun i => (swappedQS ctg).getD i 0))]
  apply List.ext_getElem
  · rw [List.length_map, List.length_range, List.length_map, List.length_range,
      List.length_map]
  · intro i h1 h2
    rw [List.length_map, List.length_range] at h1
    rw [List.getElem_map, List.getElem_map, List.getElem_range, List.getElem_range]
    rw [map_getD_comp _ _ (i + 1) (by omega), map_getD_comp _ _ i (by omega)]

/-- C6: for every alignment set with at least one alignment remaining
after restriction to the best chromosome and minimum length `l`, the
detector (in reference-start sorted order, with query start/end roles
swapped on a `-` strand): returns the two pieces `(0, b)` and
`(b, query_length)` with `b` the query start at the (first) max-gap
index if it is below the query end there, else the query end, whenever
the maximum reference gap exceeds `d`; else the two pieces split at the
first alignment's query start in reference order whenever the maximum
query gap exceeds `c`; else no breakpoint.  The reference-gap rule
takes precedence, and a single remaining alignment (no gaps) yields no
breakpoint. -/
theorem get_intra_contigs_spec (alns : ContigAlignment) (l d c : Int)
    (hne : (intraFiltered alns l).ref_headers.length ≠ 0) :
    (intraRefGaps (intraFiltered alns l) = [] →
      get_intra_contigs alns l d c = none) ∧
    (maxList (intraRefGaps (intraFiltered alns l)) > d →
      intraRefGaps (intraFiltered alns l) ≠ [] →
      get_intra_contigs alns l d c
        = some ((intraFiltered alns l).contig,
            [(0, intraBreakPoint (intraFiltered alns l)),
             (intraBreakPoint (intraFiltered alns l),
              (intraFiltered alns l).query_lens.getD 0 0)])) ∧
    (maxList (intraRefGaps (intraFiltered alns l)) ≤ d →
      maxList (intraQueryGaps (intraFiltered alns l)) > c →
      intraRefGaps (intraFiltered alns l) ≠ [] →
      get_intra_contigs alns l d c
        = some ((intraFiltered alns l).contig,
            [(0, (orderedQS (intraFiltered alns l)).getD 0 0),
             ((orderedQS (intraFiltered alns l)).getD 0 0,
              (intraFiltered alns l).query_lens.getD 0 0)])) ∧
    (maxList (intraRefGaps (intraFiltered alns l)) ≤ d →
      maxList (intraQueryGaps (intraFiltered alns l)) ≤ c →
      get_intra_contigs alns l d c = none) := by
  unfold get_intra_contigs
  rw [if_neg hne, intraDistRef_eq, intraDistCtg_eq]
  refine ⟨?_, ?_, ?_, ?_⟩
  · intro hnil
    rw [if_neg (fun hcon => hcon hnil)]
  · intro hmax hne2
    rw [if_pos hne2, if_pos hmax]
    unfold intraBreakPoint intraBreakIdx
    by_cases hqs : (orderedQS (intraFiltered alns l)).getD
        ((intraRefGaps (intraFiltered alns l)).indexOf
          (maxList (intraRefGaps (intraFiltered alns l)))) 0
      < (orderedQE (intraFiltered alns l)).getD
        ((intraRefGaps (intraFiltered alns l)).indexOf
          (maxList (intraRefGaps (intraFiltered alns l)))) 0
    · rw [if_pos hqs, if_pos hqs]
    · rw [if_neg hqs, if_neg hqs]
  · intro hmaxle hctg hne2
    rw [if_pos hne2, if_neg (by omega), if_pos hctg]
  · intro hmaxle hctgle
    by_cases hne2 : intraRefGaps (intraFiltered alns l) ≠ []
    · rw [if_pos hne2, if_neg (by omega), if_neg (by omega)]
    · rw [if_neg hne2]

/-- A two-alignment single-chromosome contig with a large reference
gap, used as concrete witness input for the detector. -/
def intraCA : ContigAlignment :=
  { contig := "c"
    ref_headers := ["A", "A"]
    ref_starts := [0, 5000]
    ref_ends := [100, 5100]
    query_starts := [0, 200]
    query_ends := [100, 300]
    aln_lens := [100, 100]
    query_lens := [400, 400]
    strands := ['+', '+'] }

/-- Witness for C6 at the concrete input `intraCA`. -/
theorem get_intra_contigs_spec_witness :
    ((intraFiltered intraCA 10).ref_headers.length ≠ 0) ∧
    ((intraRefGaps (intraFiltered intraCA 10) = [] →
      get_intra_contigs intraCA 10 1000 1000 = none) ∧
    (maxList (intraRefGaps (intraFiltered intraCA 10)) > 1000 →
      intraRefGaps (intraFiltered intraCA 10) ≠ [] →
      get_intra_contigs intraCA 10 1000 1000
        = some ((intraFiltered intraCA 10).contig,
            [(0, intraBreakPoint (intraFiltered intraCA 10)),
             (intraBreakPoint (intraFiltered intraCA 10),
              (intraFiltered intraCA 10).query_lens.getD 0 0)])) ∧
    (maxList (intraRefGaps (intraFiltered intraCA 10)) ≤ 1000 →
      maxList (intraQueryGaps (intraFiltered intraCA 10)) > 1000 →
      intraRefGaps (intraFiltered intraCA 10) ≠ [] →
      get_intra_contigs intraCA 10 1000 1000
        = some ((intraFiltered intraCA 10).contig,
            [(0, (orderedQS (intraFiltered intraCA 10)).getD 0 0),
             ((orderedQS (intraFiltered intraCA 10)).getD 0 0,
              (intraFiltered intraCA 10).query_lens.getD 0 0)])) ∧
    (maxList (intraRefGaps (intraFiltered intraCA 10)) ≤ 1000 →
      maxList (intraQueryGaps (intraFiltered intraCA 10)) ≤ 1000 →
      get_intra_contigs intraCA 10 1000 1000 = none)) :=
  ⟨by decide, get_intra_contigs_spec intraCA 10 1000 1000 (by decide)⟩

/-- A contig with an empty alignment collection. -/
def emptyCA : ContigAlignment :=
  { contig := "c"
    ref_headers := []
    ref_starts := []
    ref_ends := []
    query_starts := []
    query_ends := []
    aln_lens := []
    query_lens := []
    strands := [] }

/-- C9 counterexample: on an empty alignment list the Interchromosomal
Clusterer does NOT degrade to the whole-contig interval — it raises an
`IndexError` at `ordered_refs[0]` (line 73), modelled by `none`. -/
theorem cluster_empty_raises_cex :
    cluster_contig_alns "c" [("c", emptyCA)] ["A"] 0 = none := by
  decide

/-- C9 (amended): a single-alignment contig does degrade gracefully —
`get_borders` yields the single whole-contig interval — and the
Intrachromosomal Detector returns the explicit no-breakpoint result
(`none`, Python `None`) whenever no alignments remain after filtering;
but an empty alignment list makes the Clusterer raise
(`cluster_empty_raises_cex`) rather than degrade. -/
theorem degenerate_no_split_amended :
    (∀ (alns : ContigAlignment) (r0 : String) (order : List Nat) (q0 : Int),
      alns.query_lens.head? = some q0 →
      get_borders [r0] alns order = some [(0, q0)]) ∧
    (∀ (alns : ContigAlignment) (l d c : Int),
      (intraFiltered alns l).ref_headers = [] →
      get_intra_contigs alns l d c = none) := by
  constructor
  · intro alns r0 order q0 h2
    rw [get_borders_eq_walk [r0] alns order r0 q0 rfl h2]
    rfl
  · intro alns l d c h
    unfold get_intra_contigs
    rw [if_pos (by rw [h]; rfl)]

/-- Witness for the amended C9 at concrete inputs. -/
theorem degenerate_no_split_amended_witness :
    (oneCA.query_lens.head? = some 100 ∧ (intraFiltered emptyCA 5).ref_headers = []) ∧
    (get_borders ["A"] oneCA [0] = some [(0, 100)] ∧
      get_intra_contigs emptyCA 5 1 1 = none) :=
  ⟨⟨by decide, by decide⟩,
    ⟨degenerate_no_split_amended.1 oneCA "A" [0] 100 (by decide),
      degenerate_no_split_amended.2 emptyCA 5 1 1 (by decide)⟩⟩

/-- The caller-visible effect of `get_intra_contigs` (lines 179-183):
the function deep-copies the collection (`copy.deepcopy`) and applies
the two in-place filters only to the private copy, so in this
explicit-state embedding the call returns its result together with the
caller's collection, which is the untouched original. -/
def get_intra_contigs_state (alns : ContigAlignment) (l d c : Int) :
    Option (String × List (Int × Int)) × ContigAlignment :=
  (get_intra_contigs alns l d c, alns)

/-- C10: for every input alignment collection, `get_intra_contigs`
leaves the caller's collection unchanged — the post-call collection is
the original, and the result is computed from the filtered private
copy only. -/
theorem get_intra_contigs_frame (alns : ContigAlignment) (l d c : Int) :
    (get_intra_contigs_state alns l d c).2 = alns ∧
      (get_intra_contigs_state alns l d c).1 = get_intra_contigs alns l d c :=
  ⟨rfl, rfl⟩
